import Mathlib

/-!
Shallow embedding of `nw3.py` (an NCBI Entrez citation-graph web service)
and proofs about its graph-assembly pipeline.

The upstream HTTP layer is modelled by a `Stub` of response-valued
functions; `Option.none` stands for any swallowed failure (transport
error, HTTP error status, or parse failure), matching the bare
`except Exception` handlers in the source.  CPython's implementation-
defined `set` iteration order is modelled by an explicit oracle
`ord : List String → List String` applied to the insertion-ordered
element list of each set.
-/

namespace Nw3

/-! ### Python string primitives -/

/-- ASCII whitespace exactly as Python's default `str.strip` treats it
(space, tab, newline, carriage return, vertical tab, form feed). -/
def pyWhitespace (c : Char) : Bool :=
  c = ' ' || c = '\t' || c = '\n' || c = '\r' || c.toNat = 11 || c.toNat = 12

/-- Python `s.lstrip()`. -/
def pyLstrip (s : String) : String :=
  String.mk (s.data.dropWhile pyWhitespace)

/-- Python `s.rstrip()`. -/
def pyRstrip (s : String) : String :=
  String.mk (s.data.reverse.dropWhile pyWhitespace).reverse

/-- Python `s.strip()`. -/
def pyStrip (s : String) : String :=
  pyRstrip (pyLstrip s)

/-- Python `s[:n]` (slicing counts code points). -/
def pyTake (s : String) (n : Nat) : String :=
  String.mk (s.data.take n)

/-- Python `s.isdigit()` (restricted to ASCII digits, which is what PMIDs use). -/
def pyIsdigit (s : String) : Bool :=
  s ≠ "" && s.data.all (fun c => '0' ≤ c && c ≤ '9')

def isDigitChar (c : Char) : Bool := '0' ≤ c && c ≤ '9'

def digitVal (c : Char) : Nat := c.toNat - '0'.toNat

/-- Digit run of a Python integer literal: digits with single underscores
allowed strictly between digits. -/
def parseDigitsCore : List Char → Nat → Option Nat
  | [], acc => some acc
  | c :: rest, acc =>
    if isDigitChar c then parseDigitsCore rest (acc * 10 + digitVal c)
    else if c = '_' then
      match rest with
      | [] => none
      | r :: rs => if isDigitChar r then parseDigitsCore (r :: rs) acc else none
    else none

/-- Python `int(s)` for base-10 strings: surrounding whitespace allowed,
optional sign, then a digit run; `none` models a raised `ValueError`. -/
def pyInt (s : String) : Option Int :=
  let t := (pyStrip s).data
  let core : List Char → Option Nat := fun l =>
    match l with
    | [] => none
    | c :: _ => if isDigitChar c then parseDigitsCore l 0 else none
  match t with
  | '+' :: r => (core r).map (fun n => (n : Int))
  | '-' :: r => (core r).map (fun n => -(n : Int))
  | r => (core r).map (fun n => (n : Int))

/-! ### Python `str.split(sep)` for a nonempty separator -/

/-- Break a character list at the first occurrence of `sep`:
`some (pre, post)` with the occurrence removed, `none` if absent. -/
def breakAtSep (sep : List Char) : List Char → Option (List Char × List Char)
  | [] => none
  | c :: rest =>
    if sep.isPrefixOf (c :: rest) then some ([], (c :: rest).drop sep.length)
    else
      match breakAtSep sep rest with
      | some (pre, post) => some (c :: pre, post)
      | none => none

/-- Fuelled splitting loop: each removed separator occurrence consumes at
least one character, so fuel `s.length` always suffices and the fuel-0
fallback is unreachable on the initial call. -/
def splitCharsFuel (c0 : Char) (sep : List Char) : Nat → List Char → List (List Char)
  | 0, s => [s]
  | fuel + 1, s =>
    match breakAtSep (c0 :: sep) s with
    | none => [s]
    | some (pre, post) => pre :: splitCharsFuel c0 sep fuel post

/-- Python `s.split(sep)` over character lists for a nonempty separator
`c0 :: sep`. -/
def splitChars (c0 : Char) (sep : List Char) (s : List Char) : List (List Char) :=
  splitCharsFuel c0 sep s.length s

/-- Python `s.split(sep)`; Python raises on an empty separator, which the
program never uses, so that case is mapped to `[s]`. -/
def pySplitOn (sep : String) (s : String) : List String :=
  match sep.data with
  | [] => [s]
  | c :: cs => (splitChars c cs s.data).map String.mk

/-! ### ElementTree model (the slice of `xml.etree.ElementTree` the program uses) -/

/-- An XML element: tag, attributes, text before the first child, tail text
after the element's own closing tag, and child elements. -/
inductive XmlElem where
  | mk (tag : String) (attrib : List (String × String)) (text : Option String)
       (tail : Option String) (children : List XmlElem)

def XmlElem.tagOf : XmlElem → String
  | .mk t _ _ _ _ => t

def XmlElem.attribOf : XmlElem → List (String × String)
  | .mk _ a _ _ _ => a

def XmlElem.textOf : XmlElem → Option String
  | .mk _ _ tx _ _ => tx

def XmlElem.tailOf : XmlElem → Option String
  | .mk _ _ _ tl _ => tl

def XmlElem.childrenOf : XmlElem → List XmlElem
  | .mk _ _ _ _ cs => cs

/-- Python `elem.attrib.get(key)`. -/
def XmlElem.attrGet (e : XmlElem) (key : String) : Option String :=
  (e.attribOf.find? (fun p => p.1 = key)).map (fun p => p.2)

mutual

/-- Python `"".join(elem.itertext())`: the element's text, then recursively
each child's itertext followed by the child's tail (empty strings, like
`None`, contribute nothing because `itertext` yields only truthy strings). -/
def XmlElem.itertext : XmlElem → String
  | .mk _ _ tx _ cs => (match tx with | some t => t | none => "") ++ XmlElem.itertextList cs

def XmlElem.itertextList : List XmlElem → String
  | [] => ""
  | c :: rest =>
    XmlElem.itertext c ++ (match c.tailOf with | some t => t | none => "") ++
      XmlElem.itertextList rest

end

mutual

/-- All descendants with the given tag in document (preorder) order, as in
`elem.findall(".//Tag")`; the root of the search is excluded. -/
def XmlElem.findAllDescList (tag : String) : List XmlElem → List XmlElem
  | [] => []
  | c :: rest =>
    (if c.tagOf = tag then [c] else []) ++ XmlElem.findAllDescAux tag c ++
      XmlElem.findAllDescList tag rest

def XmlElem.findAllDescAux (tag : String) : XmlElem → List XmlElem
  | .mk _ _ _ _ cs => XmlElem.findAllDescList tag cs

end

/-- Python `root.findall(".//Tag")`. -/
def XmlElem.findAllDesc (root : XmlElem) (tag : String) : List XmlElem :=
  XmlElem.findAllDescList tag root.childrenOf

/-- Python `root.find(".//Tag")`: first matching descendant in document order. -/
def XmlElem.findDesc (root : XmlElem) (tag : String) : Option XmlElem :=
  (root.findAllDesc tag).head?

/-- Python `elem.find("Tag")`: first matching direct child. -/
def XmlElem.findChild (e : XmlElem) (tag : String) : Option XmlElem :=
  e.childrenOf.find? (fun c => c.tagOf = tag)

/-- Python `elem.findall("Tag")`: matching direct children. -/
def XmlElem.findChildren (e : XmlElem) (tag : String) : List XmlElem :=
  e.childrenOf.filter (fun c => c.tagOf = tag)

/-- Python truthiness of an `Element`: true iff it has subelements
(`Element.__bool__` is `len(self._children) != 0`; text is ignored). -/
def XmlElem.truthy (e : XmlElem) : Bool :=
  !e.childrenOf.isEmpty

/-! ### Upstream response shapes (post-JSON-parse) and the stub data source -/

/-- The slice of an `esearch` JSON body the code reads:
`j["esearchresult"]["idlist"]`.  Missing keys behave as an empty list. -/
structure EsearchResp where
  idlist : List String
deriving DecidableEq

/-- The slice of an `esummary` JSON body the code reads for the requested id:
`j["result"][pmid]` with fields `title`, `fulljournalname`, `pubdate`.
`none` models a missing key or JSON `null` (Python `res.get(...) or ""`). -/
structure SummaryResp where
  title : Option String
  fulljournalname : Option String
  pubdate : Option String
deriving DecidableEq

/-- One entry of `linksets[i].linksetdb` in an `elink` JSON body. -/
structure LinksetDb where
  links : List String
deriving DecidableEq

/-- One entry of `linksets` in an `elink` JSON body. -/
structure Linkset where
  linksetdb : List LinksetDb
deriving DecidableEq

/-- An `elink` JSON body. -/
structure ElinkResp where
  linksets : List Linkset
deriving DecidableEq

/-- Deterministic stub of the four upstream operations.  `none` models any
swallowed failure: transport error, non-2xx status, or parse failure. -/
structure Stub where
  esearch : String → Int → Option EsearchResp
  esummary : String → Option SummaryResp
  efetch : String → Option XmlElem
  elink : String → String → Option ElinkResp

/-! ### `_get`: request/sleep trace model (used by the temporal claim) -/

/-- Outcome of the underlying `SESSION.get` + `raise_for_status()` pair. -/
inductive GetOutcome where
  | success
  | transportError
  | httpError
deriving DecidableEq

/-- Observable events of one `_get` call. -/
inductive GetEvent where
  | request (endpoint : String) (params : List (String × String))
  | sleepFor (seconds : ℚ)
deriving DecidableEq

/-- `DELAY = 0.35` seconds. -/
def DELAY : ℚ := 35 / 100

structure GetResult where
  result : Except Unit Unit
  trace : List GetEvent

/-- `_get(endpoint, params)`: attach the API key if configured, perform the
network call, `raise_for_status()`, then `time.sleep(DELAY)` and return.
An exception from the call or from `raise_for_status` propagates at once:
the sleep line is only reached on success. -/
def pyGet (apiKey : Option String) (endpoint : String)
    (params : List (String × String)) (o : GetOutcome) : GetResult :=
  let params' := match apiKey with
    | some k => params ++ [("api_key", k)]
    | none => params
  match o with
  | .success => ⟨.ok (), [.request endpoint params', .sleepFor DELAY]⟩
  | .transportError => ⟨.error (), [.request endpoint params']⟩
  | .httpError => ⟨.error (), [.request endpoint params']⟩

/-! ### `search_term_to_pmids` -/

/-- `search_term_to_pmids(term, retmax)`: empty/blank term short-circuits to
`[]`; otherwise the `esearch` idlist, or `[]` on any failure. -/
def search_term_to_pmids (esearch : String → Int → Option EsearchResp)
    (term : String) (retmax : Int) : List String :=
  if term = "" then []
  else
    match esearch term retmax with
    | none => []
    | some r => r.idlist

/-! ### `get_citations_of` -/

/-- Flatten `j["linksets"][i]["linksetdb"][k]["links"]` into one ordered list. -/
def flattenLinks (r : ElinkResp) : List String :=
  (r.linksets.map (fun ls => (ls.linksetdb.map (fun ln => ln.links)).flatten)).flatten

/-- The dedup-and-truncate loop of `get_citations_of`: append each unseen
identifier, and stop as soon as `len(seen) >= limit` (checked after every
element, appended or not). -/
def citeLoop : List String → List String → Int → List String
  | [], seen, _ => seen
  | i :: rest, seen, limit =>
    let seen' := if i ∈ seen then seen else seen ++ [i]
    if (seen'.length : Int) ≥ limit then seen' else citeLoop rest seen' limit

/-- `get_citations_of(pmid, direction, limit)`. -/
def get_citations_of (elink : String → String → Option ElinkResp)
    (pmid : String) (direction : String) (limit : Int) : List String :=
  if pmid = "" then []
  else
    let linkname := if direction = "refs" then "pubmed_pubmed_refs" else "pubmed_pubmed_citedin"
    match elink pmid linkname with
    | none => []
    | some j => citeLoop (flattenLinks j) [] limit

/-! ### `get_article_summary_by_pmid` -/

structure MQual where
  name : String
  id : Option String
  major : Bool
deriving DecidableEq

structure MeshHeading where
  descriptor : String
  descriptor_id : Option String
  major : Bool
  qualifiers : List MQual
deriving DecidableEq

structure ArticleMeta where
  pmid : String
  title : String
  abstract : String
  journal : String
  pubdate : String
  mesh : List MeshHeading
deriving DecidableEq

/-- The `QualifierName` sub-loop of the MeSH parser.  `none` models the
`AttributeError` raised by `q.text.strip()` when a qualifier has no text;
the exception aborts the surrounding `try` block. -/
def parseQualifiers : List XmlElem → Option (List MQual)
  | [] => some []
  | q :: rest =>
    match q.textOf with
    | none => none
    | some t =>
      (parseQualifiers rest).map
        (fun qs => { name := pyStrip t, id := q.attrGet "UI",
                     major := q.attrGet "MajorTopicYN" == some "Y" } :: qs)

/-- The `MeshHeading` loop: headings without a `DescriptorName` child are
skipped; a `None` text on a descriptor or qualifier raises inside the
`try` block, which keeps the headings accumulated so far and drops the rest. -/
def parseMesh : List XmlElem → List MeshHeading
  | [] => []
  | mh :: rest =>
    match mh.findChild "DescriptorName" with
    | none => parseMesh rest
    | some d =>
      match d.textOf with
      | none => []
      | some dt =>
        match parseQualifiers (mh.findChildren "QualifierName") with
        | none => []
        | some qs =>
          { descriptor := pyStrip dt, descriptor_id := d.attrGet "UI",
            major := d.attrGet "MajorTopicYN" == some "Y",
            qualifiers := qs } :: parseMesh rest

/-- Title taken from the `esummary` body: `(res.get("title") or "").strip()`. -/
def summaryTitle (sumR : Option SummaryResp) : String :=
  match sumR with
  | none => ""
  | some r => pyStrip (r.title.getD "")

/-- `root.find(".//ArticleTitle") or root.find(".//Title")`.  Note Python's
`or` tests the *truthiness* of the first element, which for an
`xml.etree` `Element` is "has subelements", not "is present". -/
def xmlTitleEl (root : XmlElem) : Option XmlElem :=
  match root.findDesc "ArticleTitle" with
  | some e => if e.truthy then some e else root.findDesc "Title"
  | none => root.findDesc "Title"

/-- The resolved (pre-sentinel, pre-truncation) title of an article. -/
def preTitle (sumR : Option SummaryResp) (xmlR : Option XmlElem) : String :=
  let t0 := summaryTitle sumR
  match xmlR with
  | none => t0
  | some root =>
    if t0 = "" then
      match xmlTitleEl root with
      | some e =>
        let t := pyStrip e.itertext
        if t ≠ "" then t else t0
      | none => t0
    else t0

/-- The resolved (pre-sentinel) abstract: joined `AbstractText` segments,
else the full `Abstract` element's text, else empty. -/
def preAbstract (xmlR : Option XmlElem) : String :=
  match xmlR with
  | none => ""
  | some root =>
    let parts := (root.findAllDesc "AbstractText").filterMap
      (fun a => match a.textOf with
        | some t => if t ≠ "" then some (pyStrip t) else none
        | none => none)
    if parts ≠ [] then String.intercalate "\n\n" parts
    else
      match root.findDesc "Abstract" with
      | some el => pyStrip el.itertext
      | none => ""

/-- The parsed MeSH headings (empty when the `efetch` call failed). -/
def meshOf (xmlR : Option XmlElem) : List MeshHeading :=
  match xmlR with
  | none => []
  | some root => parseMesh (root.findAllDesc "MeshHeading")

/-- `get_article_summary_by_pmid(pmid)` given the two raw upstream responses
(`none` = that call failed and its `except` branch ran). -/
def get_article_summary_by_pmid (sumR : Option SummaryResp)
    (xmlR : Option XmlElem) (pmid : String) : ArticleMeta :=
  let t := preTitle sumR xmlR
  { pmid := pmid
    title :=
      if t = "" then "(Untitled article, PMID " ++ pmid ++ ")"
      else if t.length > 800 then pyRstrip (pyTake t 200) ++ "..." else t
    abstract :=
      let ab := preAbstract xmlR
      if ab = "" then "(No abstract available.)" else ab
    journal := match sumR with
      | none => ""
      | some r => pyStrip (r.fulljournalname.getD "")
    pubdate := match sumR with
      | none => ""
      | some r => pyStrip (r.pubdate.getD "")
    mesh := meshOf xmlR }

/-! ### `/api/graph`: the graph assembler -/

structure Node where
  id : String
  name : String
  title_full : String
  abstract : String
  journal : String
  pubdate : String
  mesh : List String
  mesh_detail : List MeshHeading
  val : Nat
  color : String
  seedGroup : String
  seedGroups : List String
  shared : Bool
deriving DecidableEq

structure Link where
  source : String
  target : String
  color : String
  semantic : Bool
deriving DecidableEq

def PALETTE : List String :=
  ["#00bcd4", "#ff9800", "#8bc34a", "#e91e63", "#9c27b0", "#ff5722", "#03a9f4", "#cddc39"]

/-- Insertion into a Python set, modelled on its insertion-ordered element list. -/
def setAdd (l : List String) (x : String) : List String :=
  if x ∈ l then l else l ++ [x]

/-- Dictionary lookup on an insertion-ordered association list. -/
def alookup {α : Type} (k : String) : List (String × α) → Option α
  | [] => none
  | (k', v) :: rest => if k = k' then some v else alookup k rest

/-- Dictionary update of an existing key (position preserved). -/
def aupdate {α : Type} (k : String) (v : α) : List (String × α) → List (String × α)
  | [] => []
  | (k', v') :: rest => if k = k' then (k', v) :: rest else (k', v') :: aupdate k v rest

/-- Re-encountering an existing node under a (new) seed: mark it shared,
append the seed to `seedGroups` if absent, repaint it with the shared color. -/
def touched (n : Node) (seed : String) : Node :=
  { n with
    shared := true
    seedGroups := if seed ∈ n.seedGroups then n.seedGroups else n.seedGroups ++ [seed]
    color := "#ffffff" }

/-- Construction of a fresh `GraphNode` for an unseen identifier. -/
def mkNode (stub : Stub) (seed : String) (sIndex : Nat) (pmid : String) : Node :=
  let meta := get_article_summary_by_pmid (stub.esummary pmid) (stub.efetch pmid) pmid
  { id := pmid
    name := meta.title
    title_full := meta.title
    abstract := meta.abstract
    journal := meta.journal
    pubdate := meta.pubdate
    mesh := meta.mesh.map (fun m => m.descriptor)
    mesh_detail := meta.mesh
    val := 12
    color := PALETTE.getD (sIndex % 8) ""
    seedGroup := seed
    seedGroups := [seed]
    shared := false }

/-- The body of the per-identifier metadata loop (lines 180–205). -/
def touchOrCreate (stub : Stub) (seed : String) (sIndex : Nat)
    (nodes : List (String × Node)) (pmid : String) : List (String × Node) :=
  match alookup pmid nodes with
  | some n => aupdate pmid (touched n seed) nodes
  | none => nodes ++ [(pmid, mkNode stub seed sIndex pmid)]

/-- Seed resolution: a bare all-digit token is itself a PMID, anything else
goes through `search_term_to_pmids` with `retmax = limit`. -/
def seedPmids (stub : Stub) (limit : Int) (seed : String) : List String :=
  if pyIsdigit seed then [seed] else search_term_to_pmids stub.esearch seed limit

/-- The per-seed working set `local_pmids` (insertion-ordered): the primary
identifiers plus each one's outgoing references. -/
def seedLocal (stub : Stub) (limit clim : Int) (seed : String) : List String :=
  let pmids := seedPmids stub limit seed
  let base := pmids.foldl setAdd []
  pmids.foldl
    (fun acc p => (get_citations_of stub.elink p "refs" clim).foldl setAdd acc) base

structure BuildSt where
  allNodes : List (String × Node)
  allLinks : List String
deriving DecidableEq

def edgeKey (a b : String) : String := a ++ "->" ++ b

/-- One iteration of the seed loop (lines 163–217).  `ord` models CPython's
implementation-defined `set` iteration order, applied to the insertion-order
list of set elements. -/
def processSeed (stub : Stub) (ord : List String → List String) (limit clim : Int)
    (st : BuildSt) (sIndex : Nat) (seed : String) : BuildSt :=
  let pmids := seedPmids stub limit seed
  if pmids = [] then st
  else
    let localList := ord (seedLocal stub limit clim seed)
    let nodes' := localList.foldl (touchOrCreate stub seed sIndex) st.allNodes
    let links1 := pmids.foldl
      (fun L a =>
        (get_citations_of stub.elink a "refs" clim).foldl
          (fun L' b => setAdd L' (edgeKey a b)) L)
      st.allLinks
    let links2 := (localList.zip localList.tail).foldl
      (fun L p => setAdd L (edgeKey p.1 p.2)) links1
    ⟨nodes', links2⟩

def processSeeds (stub : Stub) (ord : List String → List String) (limit clim : Int) :
    BuildSt → Nat → List String → BuildSt
  | st, _, [] => st
  | st, i, seed :: rest =>
    processSeeds stub ord limit clim (processSeed stub ord limit clim st i seed) (i + 1) rest

/-- `[s.strip() for s in seeds_raw.split(',') if s.strip()]`. -/
def parseSeeds (raw : String) : List String :=
  ((pySplitOn "," raw).map pyStrip).filter (fun s => s ≠ "")

/-- `try: int(request.args.get(name, 20)) except: 20`. -/
def parseLimit (p : Option String) : Int :=
  match p with
  | none => 20
  | some s => (pyInt s).getD 20

/-- `node_map = {n['id']: n for n in nodes}` followed by `.get(a)`:
on duplicate ids the comprehension keeps the last occurrence. -/
def nodeFind (nodes : List Node) (a : String) : Option Node :=
  nodes.reverse.find? (fun n => n.id = a)

/-- The per-edge body of the final link loop (lines 223–245): unpack the key,
drop it if either endpoint has no node, compute the semantic color. -/
def mkLink (nodes : List Node) (edge : String) : Option Link :=
  match pySplitOn "->" edge with
  | [a, b] =>
    match nodeFind nodes a, nodeFind nodes b with
    | some src, some tgt =>
      let sem := (!src.mesh.isEmpty) && (!tgt.mesh.isEmpty) &&
        src.mesh.any (fun m => tgt.mesh.contains m)
      some { source := a, target := b,
             color := if sem then "#66bb6a" else "#cccccc", semantic := sem }
    | _, _ => none
  | _ => none

inductive ApiResult where
  | err (msg : String)
  | ok (nodes : List Node) (links : List Link)
deriving DecidableEq

/-- The `/api/graph` handler.  `.err msg` models the 400 response
`jsonify({"error": msg}), 400`; `.ok` models the 200 response. -/
def api_graph (stub : Stub) (ord : List String → List String) (seedsRaw : String)
    (limitP connectorP : Option String) : ApiResult :=
  let seeds := parseSeeds seedsRaw
  if seeds = [] then .err "no seeds provided"
  else
    let limit := parseLimit limitP
    let clim := parseLimit connectorP
    let st := processSeeds stub ord limit clim ⟨[], []⟩ 0 seeds
    let nodes := st.allNodes.map (fun p => p.2)
    let links := (ord st.allLinks).filterMap (mkLink nodes)
    .ok nodes links

/-- Validity of a set-iteration-order oracle: it returns a permutation of
the set's elements. -/
def validOrd (ord : List String → List String) : Prop :=
  ∀ l, (ord l).Perm l

/-- First-seen-order deduplication (the `limit = ∞` behaviour of the
`get_citations_of` loop). -/
def firstSeen (l : List String) : List String :=
  l.foldl setAdd []

/-! ### Concrete inputs used by counterexamples and witnesses -/

/-- An `elink` body whose flattened link list is `["1"]`. -/
def elinkOne : ElinkResp := ⟨[⟨[⟨["1"]⟩]⟩]⟩

/-- A 900-character title whose 200th character is a space. -/
def bigTitle : String :=
  String.mk (List.replicate 199 'a' ++ ' ' :: List.replicate 700 'b')

/-- An `efetch` document with an `ArticleTitle` element carrying text `"T"`
but no child elements, followed by a `Title` element with text `"X"`. -/
def articleTitleBugXml : XmlElem :=
  .mk "PubmedArticleSet" [] none none
    [.mk "ArticleTitle" [] (some "T") none [], .mk "Title" [] (some "X") none []]

/-- A deterministic stub: PMIDs `"1"` and `"2"` each cite `"5"`; the term
`"alpha"` finds `["10", "11"]`; summaries always resolve. -/
def stubW : Stub where
  esearch := fun t _ => if t = "alpha" then some ⟨["10", "11"]⟩ else some ⟨[]⟩
  esummary := fun p => some ⟨some ("title " ++ p), some "J", some "2020"⟩
  efetch := fun _ => none
  elink := fun p ln =>
    if ln = "pubmed_pubmed_refs" then
      if p = "1" then some ⟨[⟨[⟨["5"]⟩]⟩]⟩
      else if p = "2" then some ⟨[⟨[⟨["5"]⟩]⟩]⟩
      else none
    else none

/-- The identity iteration-order oracle. -/
def idOrd : List String → List String := fun l => l

/-- The reversing iteration-order oracle. -/
def revOrd : List String → List String := fun l => l.reverse

/-! ### Derived definitions used by the invariant proofs -/

/-- The keys of an association list (ids of the node dictionary). -/
def keysOf {α : Type} (l : List (String × α)) : List String :=
  l.map Prod.fst

/-- The node stored at `pmid` after one iteration of the metadata loop. -/
def valAfter (stub : Stub) (seed : String) (sIndex : Nat)
    (nodes : List (String × Node)) (pmid : String) : Node :=
  match alookup pmid nodes with
  | some n => touched n seed
  | none => mkNode stub seed sIndex pmid

/-- Well-formedness of one entry of the node dictionary. -/
def NodeOk (p : String × Node) : Prop :=
  p.2.id = p.1 ∧ p.2.name = p.2.title_full ∧ p.2.val = 12 ∧
  p.2.seedGroups ≠ [] ∧ p.2.seedGroups.Nodup ∧
  p.2.seedGroups.head? = some p.2.seedGroup

/-- Well-formedness of the node dictionary. -/
def NodesInv (nodes : List (String × Node)) : Prop :=
  (keysOf nodes).Nodup ∧ ∀ p ∈ nodes, NodeOk p

/-- The ordered endpoint pair of an emitted link. -/
def linkPair (l : Link) : String × String :=
  (l.source, l.target)

/-- Observational equality of two node dictionaries: same key multiset and
the same value at every key.  Two runs differing only in set iteration
order produce observationally equal dictionaries. -/
def StEq (a b : List (String × Node)) : Prop :=
  (keysOf a).Perm (keysOf b) ∧ ∀ k, alookup k a = alookup k b

/-! ### Lemma layer -/

theorem breakAtSep_eq (sep s pre post : List Char)
    (h : breakAtSep sep s = some (pre, post)) : s = pre ++ sep ++ post := by
  induction s generalizing pre with
  | nil => simp [breakAtSep] at h
  | cons c rest ih =>
    rw [breakAtSep] at h
    by_cases hp : sep.isPrefixOf (c :: rest)
    · rw [if_pos hp] at h
      obtain ⟨t, ht⟩ := (List.isPrefixOf_iff_prefix.mp hp)
      injection h with h1
      injection h1 with hpre hpost
      subst hpre
      rw [← ht, List.drop_left'] at hpost
      · subst hpost
        simp [← ht]
      · rfl
    · rw [if_neg hp] at h
      cases hb : breakAtSep sep rest with
      | none => rw [hb] at h; exact absurd h (by simp)
      | some pq =>
        obtain ⟨p, q⟩ := pq
        rw [hb] at h
        injection h with h1
        injection h1 with hpre hpost
        subst hpre hpost
        simpa using congrArg (c :: ·) (ih p hb)

theorem splitCharsFuel_ne_nil (c0 : Char) (sep : List Char) (fuel : Nat)
    (s : List Char) : splitCharsFuel c0 sep fuel s ≠ [] := by
  cases fuel with
  | zero => simp [splitCharsFuel]
  | succ f =>
    rw [splitCharsFuel]
    split <;> simp

theorem splitCharsFuel_single (c0 : Char) (sep : List Char) (fuel : Nat)
    (s a : List Char) (h : splitCharsFuel c0 sep fuel s = [a]) : s = a := by
  cases fuel with
  | zero =>
    rw [splitCharsFuel] at h
    injection h with h1
  | succ f =>
    rw [splitCharsFuel] at h
    split at h
    · injection h with h1
    · rename_i pre post hb
      injection h with h1 h2
      exact absurd h2 (splitCharsFuel_ne_nil c0 sep f post)

theorem splitCharsFuel_pair (c0 : Char) (sep : List Char) (fuel : Nat)
    (s a b : List Char) (h : splitCharsFuel c0 sep fuel s = [a, b]) :
    s = a ++ (c0 :: sep) ++ b := by
  cases fuel with
  | zero =>
    rw [splitCharsFuel] at h
    exact absurd h (by simp)
  | succ f =>
    rw [splitCharsFuel] at h
    split at h
    · exact absurd h (by simp)
    · rename_i pre post hb
      injection h with h1 h2
      subst h1
      have hpost : post = b := splitCharsFuel_single c0 sep f post b h2
      subst hpost
      exact breakAtSep_eq _ _ _ _ hb

theorem splitChars_pair (c0 : Char) (sep s a b : List Char)
    (h : splitChars c0 sep s = [a, b]) : s = a ++ (c0 :: sep) ++ b :=
  splitCharsFuel_pair c0 sep s.length s a b h

theorem string_data_append (a b : String) : (a ++ b).data = a.data ++ b.data := rfl

/-- If Python `edge.split("->")` yields exactly two parts, the edge key is
their joining with `"->"`; hence the (source, target) pair determines the key. -/
theorem pySplitOn_arrow_pair (s a b : String)
    (h : pySplitOn "->" s = [a, b]) : s = a ++ "->" ++ b := by
  have h' : List.map String.mk (splitChars '-' ['>'] s.data) = [a, b] := h
  have : ∃ a' b', splitChars '-' ['>'] s.data = [a', b'] ∧
      String.mk a' = a ∧ String.mk b' = b := by
    cases hs : splitChars '-' ['>'] s.data with
    | nil => rw [hs] at h'; exact absurd h' (by simp)
    | cons x xs =>
      cases xs with
      | nil => rw [hs] at h'; exact absurd h' (by simp)
      | cons y ys =>
        cases ys with
        | nil =>
          rw [hs] at h'
          simp only [List.map] at h'
          injection h' with h1 h2
          injection h2 with h3 h4
          exact ⟨x, y, rfl, h1, h3⟩
        | cons z zs => rw [hs] at h'; exact absurd h' (by simp)
  obtain ⟨a', b', hs, ha, hb⟩ := this
  have hdata : s.data = a' ++ ['-', '>'] ++ b' := splitChars_pair _ _ _ _ _ hs
  subst ha hb
  apply String.ext
  rw [string_data_append, string_data_append]
  exact hdata

/-! ### Set-insertion lemmas -/

theorem mem_setAdd {l : List String} {x y : String} :
    y ∈ setAdd l x ↔ y ∈ l ∨ y = x := by
  unfold setAdd
  split
  · rename_i hx
    constructor
    · exact Or.inl
    · rintro (h | rfl)
      · exact h
      · exact hx
  · simp

theorem setAdd_nodup {l : List String} (x : String) (h : l.Nodup) :
    (setAdd l x).Nodup := by
  unfold setAdd
  split
  · exact h
  · rename_i hx
    simp [List.nodup_append, h, hx]

theorem length_setAdd_le (l : List String) (x : String) :
    (setAdd l x).length ≤ l.length + 1 := by
  unfold setAdd
  split <;> simp

theorem length_le_setAdd (l : List String) (x : String) :
    l.length ≤ (setAdd l x).length := by
  unfold setAdd
  split <;> simp

theorem foldl_setAdd_nodup (l : List String) :
    ∀ seen : List String, seen.Nodup → (l.foldl setAdd seen).Nodup := by
  induction l with
  | nil => intro seen h; exact h
  | cons x xs ih =>
    intro seen h
    rw [List.foldl_cons]
    exact ih (setAdd seen x) (setAdd_nodup x h)

theorem foldl_setAdd_ext (l : List String) :
    ∀ seen : List String, ∃ t, l.foldl setAdd seen = seen ++ t := by
  induction l with
  | nil => intro seen; exact ⟨[], by simp⟩
  | cons x xs ih =>
    intro seen
    rw [List.foldl_cons]
    obtain ⟨t, ht⟩ := ih (setAdd seen x)
    rw [ht]
    unfold setAdd
    split
    · exact ⟨t, rfl⟩
    · exact ⟨[x] ++ t, by simp⟩

theorem mem_foldl_setAdd (l : List String) :
    ∀ (seen : List String) (y : String),
      y ∈ l.foldl setAdd seen ↔ y ∈ seen ∨ y ∈ l := by
  induction l with
  | nil => intro seen y; simp
  | cons x xs ih =>
    intro seen y
    rw [List.foldl_cons, ih]
    rw [mem_setAdd]
    constructor
    · rintro ((h | rfl) | h)
      · exact Or.inl h
      · exact Or.inr (by simp)
      · exact Or.inr (by simp [h])
    · rintro (h | h)
      · exact Or.inl (Or.inl h)
      · rcases List.mem_cons.mp h with rfl | h
        · exact Or.inl (Or.inr rfl)
        · exact Or.inr h

theorem firstSeen_nodup (l : List String) : (firstSeen l).Nodup :=
  foldl_setAdd_nodup l [] List.nodup_nil

/-! ### The `get_citations_of` loop -/

theorem citeLoop_take (l : List String) :
    ∀ (seen : List String) (limit : Int), (seen.length : Int) < limit →
      citeLoop l seen limit = (l.foldl setAdd seen).take limit.toNat := by
  induction l with
  | nil =>
    intro seen limit hlt
    rw [citeLoop, List.foldl_nil]
    rw [List.take_of_length_le (by omega)]
  | cons i rest ih =>
    intro seen limit hlt
    rw [citeLoop, List.foldl_cons]
    have hseen' : (if i ∈ seen then seen else seen ++ [i]) = setAdd seen i := by
      unfold setAdd; rfl
    rw [hseen']
    by_cases hge : ((setAdd seen i).length : Int) ≥ limit
    · rw [if_pos hge]
      have hle := length_setAdd_le seen i
      have hlen : (setAdd seen i).length = limit.toNat := by omega
      obtain ⟨t, ht⟩ := foldl_setAdd_ext rest (setAdd seen i)
      rw [ht, ← hlen, List.take_left]
    · rw [if_neg hge]
      exact ih (setAdd seen i) limit (by omega)

/-- C3, amended core: for a positive limit the returned list is exactly the
first-seen deduplication of the flattened response, truncated at `limit`. -/
theorem get_citations_take (elink : String → String → Option ElinkResp)
    (pmid direction : String) (limit : Int) (r : ElinkResp)
    (hpmid : pmid ≠ "")
    (hr : elink pmid
      (if direction = "refs" then "pubmed_pubmed_refs" else "pubmed_pubmed_citedin") = some r)
    (hpos : 1 ≤ limit) :
    get_citations_of elink pmid direction limit =
      (firstSeen (flattenLinks r)).take limit.toNat := by
  unfold get_citations_of
  rw [if_neg hpmid]
  simp only
  rw [hr]
  exact citeLoop_take (flattenLinks r) [] limit (by simp; omega)

theorem get_citations_length (elink : String → String → Option ElinkResp)
    (pmid direction : String) (limit : Int) (hpos : 1 ≤ limit) :
    ((get_citations_of elink pmid direction limit).length : Int) ≤ limit := by
  unfold get_citations_of
  split
  · simp; omega
  · simp only
    cases hr : elink pmid
        (if direction = "refs" then "pubmed_pubmed_refs" else "pubmed_pubmed_citedin") with
    | none => simp; omega
    | some r =>
      show ((citeLoop (flattenLinks r) [] limit).length : Int) ≤ limit
      rw [citeLoop_take (flattenLinks r) [] limit (by simp; omega)]
      have := List.length_take_le limit.toNat ((flattenLinks r).foldl setAdd [])
      omega

theorem get_citations_nodup (elink : String → String → Option ElinkResp)
    (pmid direction : String) (limit : Int) (hpos : 1 ≤ limit) :
    (get_citations_of elink pmid direction limit).Nodup := by
  unfold get_citations_of
  split
  · exact List.nodup_nil
  · simp only
    cases hr : elink pmid
        (if direction = "refs" then "pubmed_pubmed_refs" else "pubmed_pubmed_citedin") with
    | none => exact List.nodup_nil
    | some r =>
      show (citeLoop (flattenLinks r) [] limit).Nodup
      rw [citeLoop_take (flattenLinks r) [] limit (by simp; omega)]
      exact (List.take_sublist _ _).nodup (foldl_setAdd_nodup _ [] List.nodup_nil)

/-! ### Claims C3, C4, C5, C6, C9 -/

/-- C3 counterexample: with `limit = 0` and an upstream response holding one
link, `get_citations_of` returns one element — more than `limit` — so the
claim's length bound, quantified over every integer limit, is false. -/
theorem get_citations_limit_zero_ce :
    ¬ (((get_citations_of (fun _ _ => some elinkOne) "9" "refs" 0).length : Int) ≤ 0) := by
  decide

/-- C3 (amended to positive limits): for every stubbing of the `elink`
operation, identifier, direction and limit `≥ 1`, the result has at most
`limit` elements, has no duplicates, and — whenever the upstream call
succeeds on a nonempty id — equals the first-seen-order deduplication of the
flattened upstream response truncated at `limit`. -/
theorem get_citations_bounded_dedup_ordered
    (elink : String → String → Option ElinkResp)
    (pmid direction : String) (limit : Int) (hpos : 1 ≤ limit) :
    ((get_citations_of elink pmid direction limit).length : Int) ≤ limit ∧
    (get_citations_of elink pmid direction limit).Nodup ∧
    (∀ r, pmid ≠ "" →
      elink pmid
        (if direction = "refs" then "pubmed_pubmed_refs" else "pubmed_pubmed_citedin") =
          some r →
      get_citations_of elink pmid direction limit =
        (firstSeen (flattenLinks r)).take limit.toNat) :=
  ⟨get_citations_length elink pmid direction limit hpos,
   get_citations_nodup elink pmid direction limit hpos,
   fun r hpmid hr => get_citations_take elink pmid direction limit r hpmid hr hpos⟩

theorem get_citations_bounded_dedup_ordered_witness :
    (1 : Int) ≤ 2 ∧
    ((get_citations_of (fun _ _ => some elinkOne) "9" "refs" 2).length : Int) ≤ 2 ∧
    (get_citations_of (fun _ _ => some elinkOne) "9" "refs" 2).Nodup ∧
    get_citations_of (fun _ _ => some elinkOne) "9" "refs" 2 =
      (firstSeen (flattenLinks elinkOne)).take (2 : Int).toNat := by
  have h := get_citations_bounded_dedup_ordered
    (fun _ _ => some elinkOne) "9" "refs" 2 (by decide)
  exact ⟨by decide, h.1, h.2.1, h.2.2 elinkOne (by decide) rfl⟩

/-- C4: when the upstream call fails (transport error, HTTP error status or
parse failure — all collapsed into the `none` response by the bare `except`
handlers), `search_term_to_pmids` and `get_citations_of` return `[]` and
`get_article_summary_by_pmid` returns the all-sentinel record; all three
are total functions of the modelled outcome, so no exception reaches their
callers. -/
theorem adapter_failures_swallowed (term : String) (retmax : Int)
    (pmid direction pmid2 : String) (limit : Int) :
    search_term_to_pmids (fun _ _ => none) term retmax = [] ∧
    get_citations_of (fun _ _ => none) pmid direction limit = [] ∧
    get_article_summary_by_pmid none none pmid2 =
      { pmid := pmid2
        title := "(Untitled article, PMID " ++ pmid2 ++ ")"
        abstract := "(No abstract available.)"
        journal := ""
        pubdate := ""
        mesh := [] } := by
  refine ⟨?_, ?_, rfl⟩
  · unfold search_term_to_pmids
    split <;> rfl
  · unfold get_citations_of
    split <;> rfl

/-! ### Title-truncation helper lemmas -/

theorem dropWhile_pyWs_replicate (c : Char) (hc : pyWhitespace c = false) (n : Nat) :
    List.dropWhile pyWhitespace (List.replicate n c) = List.replicate n c := by
  cases n with
  | zero => simp
  | succ m =>
    rw [List.replicate_succ, List.dropWhile_cons]
    simp [hc]

theorem dropWhile_pyWs_replicate_append (c : Char) (hc : pyWhitespace c = false)
    (m : Nat) (t : List Char) :
    List.dropWhile pyWhitespace (List.replicate (m + 1) c ++ t) =
      List.replicate (m + 1) c ++ t := by
  rw [List.replicate_succ, List.cons_append, List.dropWhile_cons]
  simp [hc]

theorem pyStrip_mk (L : List Char) :
    pyStrip (String.mk L) =
      String.mk ((L.dropWhile pyWhitespace).reverse.dropWhile pyWhitespace).reverse := rfl

theorem pyStrip_block (m k : Nat) (c d mid : Char) (hc : pyWhitespace c = false)
    (hd : pyWhitespace d = false) :
    pyStrip (String.mk (List.replicate (m + 1) c ++ mid :: List.replicate (k + 1) d)) =
      String.mk (List.replicate (m + 1) c ++ mid :: List.replicate (k + 1) d) := by
  rw [pyStrip_mk]
  rw [dropWhile_pyWs_replicate_append c hc m]
  have hrev : (List.replicate (m + 1) c ++ mid :: List.replicate (k + 1) d).reverse
      = List.replicate (k + 1) d ++ mid :: List.replicate (m + 1) c := by
    simp [List.reverse_append]
  rw [hrev]
  rw [dropWhile_pyWs_replicate_append d hd k]
  have hrev2 : (List.replicate (k + 1) d ++ mid :: List.replicate (m + 1) c).reverse
      = List.replicate (m + 1) c ++ mid :: List.replicate (k + 1) d := by
    simp [List.reverse_append]
  rw [hrev2]

theorem pyStrip_bigTitle : pyStrip bigTitle = bigTitle :=
  pyStrip_block 198 699 'a' 'b' ' ' rfl rfl

theorem preTitle_bigTitle : preTitle (some ⟨some bigTitle, none, none⟩) none = bigTitle :=
  pyStrip_bigTitle

theorem bigTitle_length : bigTitle.length = 900 := by
  show (List.replicate 199 'a' ++ ' ' :: List.replicate 700 'b').length = 900
  rw [List.length_append, List.length_cons, List.length_replicate, List.length_replicate]

theorem preTitle_big_length :
    800 < (preTitle (some ⟨some bigTitle, none, none⟩) none).length := by
  rw [preTitle_bigTitle, bigTitle_length]
  omega

theorem pyTake_bigTitle : pyTake bigTitle 200 = String.mk (List.replicate 199 'a' ++ [' ']) := by
  show String.mk ((List.replicate 199 'a' ++ ' ' :: List.replicate 700 'b').take 200) = _
  rw [List.take_append_eq_append_take]
  rw [List.take_of_length_le (by rw [List.length_replicate]; omega)]
  rw [show (200 : Nat) - (List.replicate 199 'a').length = 1 from by
    rw [List.length_replicate]]
  rw [show List.take 1 (' ' :: List.replicate 700 'b') = [' '] from rfl]

theorem pyRstrip_block (m : Nat) (c w : Char) (hc : pyWhitespace c = false)
    (hw : pyWhitespace w = true) :
    pyRstrip (String.mk (List.replicate (m + 1) c ++ [w])) =
      String.mk (List.replicate (m + 1) c) := by
  show String.mk (((List.replicate (m + 1) c ++ [w]).reverse.dropWhile pyWhitespace).reverse) = _
  have h1 : (List.replicate (m + 1) c ++ [w]).reverse = w :: List.replicate (m + 1) c := by
    simp [List.reverse_append]
  rw [h1, List.dropWhile_cons, if_pos hw, dropWhile_pyWs_replicate c hc (m + 1)]
  rw [List.reverse_replicate]

theorem pyRstrip_cut :
    pyRstrip (String.mk (List.replicate 199 'a' ++ [' '])) = String.mk (List.replicate 199 'a') :=
  pyRstrip_block 198 'a' ' ' rfl rfl

/-- The truncation branch of the normalizer, exposed for reuse. -/
theorem title_truncation_core (sumR : Option SummaryResp)
    (xmlR : Option XmlElem) (pmid : String)
    (h : 800 < (preTitle sumR xmlR).length) :
    (get_article_summary_by_pmid sumR xmlR pmid).title =
      pyRstrip (pyTake (preTitle sumR xmlR) 200) ++ "..." := by
  have hne : preTitle sumR xmlR ≠ "" := by
    intro he
    rw [he] at h
    simp [String.length] at h
  show (if preTitle sumR xmlR = "" then _
    else if (preTitle sumR xmlR).length > 800 then
      pyRstrip (pyTake (preTitle sumR xmlR) 200) ++ "..." else _) = _
  rw [if_neg hne, if_pos h]

/-- C5 counterexample: a 900-character title whose 200th character is a
space is stored as its first 199 characters plus the ellipsis (the code
calls `.rstrip()` on the 200-character cut), not as the claimed first 200
characters plus the ellipsis. -/
theorem title_truncation_ce :
    (get_article_summary_by_pmid (some ⟨some bigTitle, none, none⟩) none "1").title ≠
      pyTake bigTitle 200 ++ "..." := by
  rw [title_truncation_core _ _ _ preTitle_big_length]
  rw [preTitle_bigTitle, pyTake_bigTitle, pyRstrip_cut]
  intro he
  have hlen := congrArg String.length he
  rw [String.length_append, String.length_append] at hlen
  have e1 : (String.mk (List.replicate 199 'a')).length = 199 := by
    show (List.replicate 199 'a').length = 199
    rw [List.length_replicate]
  have e2 : (String.mk (List.replicate 199 'a' ++ [' '])).length = 200 := by
    show (List.replicate 199 'a' ++ [' ']).length = 200
    rw [List.length_append, List.length_replicate, List.length_cons, List.length_nil]
  rw [e1, e2] at hlen
  omega

/-- C5 (amended): whenever the resolved title exceeds 800 characters, the
stored title is the first 200 characters *with trailing whitespace
stripped*, followed by the 3-character ellipsis. -/
theorem title_truncation_amended (sumR : Option SummaryResp)
    (xmlR : Option XmlElem) (pmid : String)
    (h : 800 < (preTitle sumR xmlR).length) :
    (get_article_summary_by_pmid sumR xmlR pmid).title =
      pyRstrip (pyTake (preTitle sumR xmlR) 200) ++ "..." :=
  title_truncation_core sumR xmlR pmid h

theorem title_truncation_amended_witness :
    800 < (preTitle (some ⟨some bigTitle, none, none⟩) none).length ∧
    (get_article_summary_by_pmid (some ⟨some bigTitle, none, none⟩) none "1").title =
      pyRstrip (pyTake (preTitle (some ⟨some bigTitle, none, none⟩) none) 200) ++ "..." :=
  ⟨preTitle_big_length,
   title_truncation_amended (some ⟨some bigTitle, none, none⟩) none "1" preTitle_big_length⟩

/-- C6 (code bug): with no summary title, an `ArticleTitle` element present
with nonempty text `"T"` but no child elements, and a `Title` element with
text `"X"`, the code stores `"X"`: the fallback `find(".//ArticleTitle") or
find(".//Title")` tests the Python *truthiness* of the element, which for
`xml.etree` elements is "has subelements" (the docs warn to use
`is not None`, which line 63 of the source itself does), so a childless
`ArticleTitle` is skipped even though it is present with nonempty text. -/
theorem article_title_truthiness_bug :
    articleTitleBugXml.findDesc "ArticleTitle" =
      some (.mk "ArticleTitle" [] (some "T") none []) ∧
    pyStrip (XmlElem.itertext (.mk "ArticleTitle" [] (some "T") none [])) = "T" ∧
    (get_article_summary_by_pmid none (some articleTitleBugXml) "7").title = "X" :=
  ⟨rfl, rfl, rfl⟩

/-- C9 counterexample: on a transport error the `time.sleep(DELAY)` line is
never reached — the exception propagates from `SESSION.get` first — so the
delay is not slept "regardless of outcome". -/
theorem sleep_skipped_on_transport_error :
    GetEvent.sleepFor DELAY ∉
      (pyGet none "elink" [] GetOutcome.transportError).trace := by
  decide

/-- C9 (amended): the fixed delay is slept, after the network call and
before returning, exactly when the call succeeds (2xx); on a transport
error or HTTP error status the exception propagates without any sleep. -/
theorem sleep_only_after_success (apiKey : Option String) (endpoint : String)
    (params : List (String × String)) (o : GetOutcome) :
    ∃ p', (pyGet apiKey endpoint params o).trace =
      if o = GetOutcome.success
      then [GetEvent.request endpoint p', GetEvent.sleepFor DELAY]
      else [GetEvent.request endpoint p'] := by
  refine ⟨match apiKey with
    | some k => params ++ [("api_key", k)]
    | none => params, ?_⟩
  cases o <;> cases apiKey <;> rfl

/-! ### Claim C8: request validation and parameter defaulting -/

/-- C8: the handler answers the static 400 error exactly when the trimmed
seed list is empty; a nonempty seed list always produces a 200 response;
a missing or non-integer `limit`/`connector_limit` parameter falls back to
the default 20 (the same `parseLimit` is used for both parameters). -/
theorem api_graph_error_iff_and_defaults (stub : Stub)
    (ord : List String → List String) (seedsRaw : String)
    (limitP connectorP : Option String) :
    (api_graph stub ord seedsRaw limitP connectorP = .err "no seeds provided" ↔
      parseSeeds seedsRaw = []) ∧
    (parseSeeds seedsRaw ≠ [] →
      ∃ ns ls, api_graph stub ord seedsRaw limitP connectorP = .ok ns ls) ∧
    parseLimit none = 20 ∧
    (∀ s, pyInt s = none → parseLimit (some s) = 20) := by
  refine ⟨?_, ?_, rfl, ?_⟩
  · unfold api_graph
    by_cases h : parseSeeds seedsRaw = []
    · simp [h]
    · simp [h]
  · intro h
    unfold api_graph
    rw [if_neg h]
    exact ⟨_, _, rfl⟩
  · intro s hs
    show (pyInt s).getD 20 = 20
    rw [hs]
    rfl

theorem api_graph_error_iff_and_defaults_witness :
    (api_graph stubW idOrd " , ," none none = .err "no seeds provided") ∧
    (∃ ns ls, api_graph stubW idOrd "1,2" (some "abc") none = .ok ns ls) ∧
    parseLimit (some "abc") = 20 := by
  have h1 := (api_graph_error_iff_and_defaults stubW idOrd " , ," none none).1
  have h2 := api_graph_error_iff_and_defaults stubW idOrd "1,2" (some "abc") none
  exact ⟨h1.mpr (by decide), h2.2.1 (by decide), h2.2.2.2 "abc" (by decide)⟩

/-! ### Generic invariant-propagation helpers -/

theorem foldl_invariant {β : Type} {γ : Type} (P : γ → Prop) (f : γ → β → γ)
    (hstep : ∀ acc b, P acc → P (f acc b)) :
    ∀ (l : List β) (acc : γ), P acc → P (l.foldl f acc) := by
  intro l
  induction l with
  | nil => intro acc h; exact h
  | cons x xs ih => intro acc h; exact ih (f acc x) (hstep acc x h)

theorem processSeeds_invariant (stub : Stub) (ord : List String → List String)
    (limit clim : Int) (P : BuildSt → Prop)
    (hstep : ∀ st i s, P st → P (processSeed stub ord limit clim st i s)) :
    ∀ (ss : List String) (st : BuildSt) (i : Nat),
      P st → P (processSeeds stub ord limit clim st i ss) := by
  intro ss
  induction ss with
  | nil => intro st i h; exact h
  | cons s rest ih =>
    intro st i h
    exact ih (processSeed stub ord limit clim st i s) (i + 1) (hstep st i s h)

/-! ### Association-list lemmas -/

theorem alookup_mem {α : Type} {k : String} {v : α} :
    ∀ {l : List (String × α)}, alookup k l = some v → (k, v) ∈ l := by
  intro l
  induction l with
  | nil => intro h; exact absurd h (by simp [alookup])
  | cons p rest ih =>
    intro h
    rw [alookup] at h
    split at h
    · rename_i heq
      injection h with h1
      subst h1 heq
      exact List.mem_cons_self _ _
    · exact List.mem_cons_of_mem _ (ih h)

theorem alookup_aupdate_self {α : Type} (k : String) (v : α) :
    ∀ (l : List (String × α)), (alookup k l).isSome →
      alookup k (aupdate k v l) = some v := by
  intro l
  induction l with
  | nil => intro h; exact absurd h (by simp [alookup])
  | cons p rest ih =>
    intro h
    obtain ⟨k', v'⟩ := p
    rw [aupdate]
    by_cases hk : k = k'
    · rw [if_pos hk, alookup, if_pos hk]
    · rw [if_neg hk, alookup, if_neg hk]
      rw [alookup, if_neg hk] at h
      exact ih h

theorem alookup_aupdate_of_ne {α : Type} (k k' : String) (v : α) (hne : k' ≠ k) :
    ∀ (l : List (String × α)), alookup k' (aupdate k v l) = alookup k' l := by
  intro l
  induction l with
  | nil => rfl
  | cons p rest ih =>
    obtain ⟨k0, v0⟩ := p
    rw [aupdate]
    by_cases hk : k = k0
    · subst hk
      rw [if_pos rfl, alookup, alookup, if_neg hne, if_neg hne]
    · rw [if_neg hk, alookup, alookup]
      by_cases hk' : k' = k0
      · rw [if_pos hk', if_pos hk']
      · rw [if_neg hk', if_neg hk', ih]

theorem alookup_append_single {α : Type} (k k' : String) (v : α) :
    ∀ (l : List (String × α)),
      alookup k' (l ++ [(k, v)]) =
        match alookup k' l with
        | some x => some x
        | none => if k' = k then some v else none := by
  intro l
  induction l with
  | nil =>
    rw [List.nil_append, alookup]
    rfl
  | cons p rest ih =>
    obtain ⟨k0, v0⟩ := p
    rw [List.cons_append, alookup, alookup]
    by_cases hk : k' = k0
    · rw [if_pos hk, if_pos hk]
    · rw [if_neg hk, if_neg hk, ih]

theorem keys_aupdate {α : Type} (k : String) (v : α) :
    ∀ (l : List (String × α)), keysOf (aupdate k v l) = keysOf l := by
  intro l
  induction l with
  | nil => rfl
  | cons p rest ih =>
    obtain ⟨k0, v0⟩ := p
    rw [aupdate]
    by_cases hk : k = k0
    · rw [if_pos hk]
      rfl
    · rw [if_neg hk]
      show k0 :: keysOf (aupdate k v rest) = k0 :: keysOf rest
      rw [ih]

theorem alookup_isSome_iff_mem {α : Type} (k : String) :
    ∀ (l : List (String × α)), (alookup k l).isSome ↔ k ∈ keysOf l := by
  intro l
  induction l with
  | nil => simp [alookup, keysOf]
  | cons p rest ih =>
    obtain ⟨k0, v0⟩ := p
    rw [alookup]
    by_cases hk : k = k0
    · subst hk
      simp [keysOf]
    · rw [if_neg hk]
      show _ ↔ k ∈ k0 :: keysOf rest
      rw [List.mem_cons]
      constructor
      · intro h; exact Or.inr (ih.mp h)
      · rintro (h | h)
        · exact absurd h hk
        · exact ih.mpr h

theorem mem_aupdate {α : Type} {k : String} {v : α} {q : String × α} :
    ∀ {l : List (String × α)}, q ∈ aupdate k v l → q ∈ l ∨ q = (k, v) := by
  intro l
  induction l with
  | nil => intro h; exact absurd h (by simp [aupdate])
  | cons p rest ih =>
    intro h
    obtain ⟨k0, v0⟩ := p
    rw [aupdate] at h
    split at h
    · rename_i hk
      subst hk
      rcases List.mem_cons.mp h with rfl | h
      · exact Or.inr rfl
      · exact Or.inl (List.mem_cons_of_mem _ h)
    · rcases List.mem_cons.mp h with rfl | h
      · exact Or.inl (List.mem_cons_self _ _)
      · rcases ih h with h | h
        · exact Or.inl (List.mem_cons_of_mem _ h)
        · exact Or.inr h


/-! ### The metadata loop: characterization and invariants -/

theorem alookup_touchOrCreate (stub : Stub) (seed : String) (sIndex : Nat)
    (nodes : List (String × Node)) (pmid k : String) :
    alookup k (touchOrCreate stub seed sIndex nodes pmid) =
      if k = pmid then some (valAfter stub seed sIndex nodes pmid)
      else alookup k nodes := by
  unfold touchOrCreate valAfter
  cases h : alookup pmid nodes with
  | some n =>
    by_cases hk : k = pmid
    · subst hk
      rw [if_pos rfl, alookup_aupdate_self k (touched n seed) nodes (by rw [h]; rfl)]
    · rw [if_neg hk, alookup_aupdate_of_ne pmid k (touched n seed) hk]
  | none =>
    by_cases hk : k = pmid
    · subst hk
      rw [if_pos rfl, alookup_append_single k k (mkNode stub seed sIndex k) nodes]
      rw [h, if_pos rfl]
    · rw [if_neg hk, alookup_append_single pmid k (mkNode stub seed sIndex pmid) nodes]
      cases hkn : alookup k nodes with
      | some v => rfl
      | none => rw [if_neg hk]

theorem keys_touchOrCreate (stub : Stub) (seed : String) (sIndex : Nat)
    (nodes : List (String × Node)) (pmid : String) :
    keysOf (touchOrCreate stub seed sIndex nodes pmid) =
      if (alookup pmid nodes).isSome then keysOf nodes
      else keysOf nodes ++ [pmid] := by
  unfold touchOrCreate
  cases h : alookup pmid nodes with
  | some n =>
    rw [keys_aupdate]
    rfl
  | none =>
    show keysOf (nodes ++ [(pmid, _)]) = _
    unfold keysOf
    rw [List.map_append]
    rfl

theorem head_append_of_ne_nil {α : Type} (l t : List α) (h : l ≠ []) :
    (l ++ t).head? = l.head? := by
  cases l with
  | nil => exact absurd rfl h
  | cons x xs => rfl

theorem nodeOk_touched {k : String} {n : Node} (seed : String)
    (h : NodeOk (k, n)) : NodeOk (k, touched n seed) := by
  obtain ⟨h1, h2, h3, h4, h5, h6⟩ := h
  refine ⟨h1, h2, h3, ?_, ?_, ?_⟩ <;> unfold touched <;> simp only
  · split
    · exact h4
    · simp
  · split
    · exact h5
    · rename_i hs
      simp [List.nodup_append, h5, hs]
  · split
    · exact h6
    · rw [head_append_of_ne_nil _ _ h4]
      exact h6

theorem nodeOk_mkNode (stub : Stub) (seed : String) (sIndex : Nat) (pmid : String) :
    NodeOk (pmid, mkNode stub seed sIndex pmid) := by
  refine ⟨rfl, rfl, rfl, by simp [mkNode], by simp [mkNode], rfl⟩

theorem nodesInv_touchOrCreate (stub : Stub) (seed : String) (sIndex : Nat)
    (nodes : List (String × Node)) (pmid : String) (h : NodesInv nodes) :
    NodesInv (touchOrCreate stub seed sIndex nodes pmid) := by
  obtain ⟨hk, hm⟩ := h
  constructor
  · rw [keys_touchOrCreate]
    split
    · exact hk
    · rename_i hns
      have hnm : pmid ∉ keysOf nodes := by
        rw [← alookup_isSome_iff_mem]
        simpa using hns
      simp [List.nodup_append, hk, hnm]
  · intro q hq
    unfold touchOrCreate at hq
    cases hl : alookup pmid nodes with
    | some n =>
      rw [hl] at hq
      rcases mem_aupdate hq with hq | rfl
      · exact hm q hq
      · exact nodeOk_touched seed (hm (pmid, n) (alookup_mem hl))
    | none =>
      rw [hl] at hq
      rcases List.mem_append.mp hq with hq | hq
      · exact hm q hq
      · rcases List.mem_singleton.mp hq with rfl
        exact nodeOk_mkNode stub seed sIndex pmid

theorem nodesInv_processSeed (stub : Stub) (ord : List String → List String)
    (limit clim : Int) (st : BuildSt) (i : Nat) (s : String)
    (h : NodesInv st.allNodes) :
    NodesInv (processSeed stub ord limit clim st i s).allNodes := by
  simp only [processSeed]
  split
  · exact h
  · exact foldl_invariant NodesInv _
      (fun acc b hb => nodesInv_touchOrCreate stub s i acc b hb) _ _ h

theorem nodesInv_processSeeds (stub : Stub) (ord : List String → List String)
    (limit clim : Int) (ss : List String) (st : BuildSt) (i : Nat)
    (h : NodesInv st.allNodes) :
    NodesInv (processSeeds stub ord limit clim st i ss).allNodes :=
  processSeeds_invariant stub ord limit clim (fun st => NodesInv st.allNodes)
    (fun st i s hs => nodesInv_processSeed stub ord limit clim st i s hs) ss st i h

/-- Destructure a successful `api_graph` run into its final build state. -/
theorem api_graph_ok_eq (stub : Stub) (ord : List String → List String)
    (seedsRaw : String) (lp cp : Option String) (nodes : List Node)
    (links : List Link)
    (hres : api_graph stub ord seedsRaw lp cp = .ok nodes links) :
    parseSeeds seedsRaw ≠ [] ∧
    nodes = (processSeeds stub ord (parseLimit lp) (parseLimit cp) ⟨[], []⟩ 0
        (parseSeeds seedsRaw)).allNodes.map (fun p => p.2) ∧
    links = (ord (processSeeds stub ord (parseLimit lp) (parseLimit cp) ⟨[], []⟩ 0
        (parseSeeds seedsRaw)).allLinks).filterMap (mkLink
          ((processSeeds stub ord (parseLimit lp) (parseLimit cp) ⟨[], []⟩ 0
            (parseSeeds seedsRaw)).allNodes.map (fun p => p.2))) := by
  unfold api_graph at hres
  by_cases h : parseSeeds seedsRaw = []
  · rw [if_pos h] at hres
    exact absurd hres (by simp)
  · rw [if_neg h] at hres
    simp only [ApiResult.ok.injEq] at hres
    exact ⟨h, hres.1.symm, hres.2.symm⟩

/-! ### Claim C10: node field invariants -/

/-- C10: in every successful `/api/graph` response the node ids are pairwise
distinct, and every node has `name = title_full`, `val = 12`, a nonempty
duplicate-free `seedGroups` list whose first element is `seedGroup`. -/
theorem api_graph_node_invariants (stub : Stub) (ord : List String → List String)
    (seedsRaw : String) (lp cp : Option String) (nodes : List Node)
    (links : List Link)
    (hres : api_graph stub ord seedsRaw lp cp = .ok nodes links) :
    (nodes.map (fun n => n.id)).Nodup ∧
    ∀ n ∈ nodes, n.name = n.title_full ∧ n.val = 12 ∧ n.seedGroups ≠ [] ∧
      n.seedGroups.Nodup ∧ n.seedGroups.head? = some n.seedGroup := by
  obtain ⟨hne, hn, _⟩ := api_graph_ok_eq stub ord seedsRaw lp cp nodes links hres
  have hinv := nodesInv_processSeeds stub ord (parseLimit lp) (parseLimit cp)
    (parseSeeds seedsRaw) ⟨[], []⟩ 0 ⟨by simp [keysOf], by simp⟩
  obtain ⟨hkeys, hmem⟩ := hinv
  subst hn
  constructor
  · rw [List.map_map]
    have : ((processSeeds stub ord (parseLimit lp) (parseLimit cp) ⟨[], []⟩ 0
        (parseSeeds seedsRaw)).allNodes.map ((fun n => n.id) ∘ (fun p => p.2))) =
        keysOf (processSeeds stub ord (parseLimit lp) (parseLimit cp) ⟨[], []⟩ 0
          (parseSeeds seedsRaw)).allNodes := by
      apply List.map_congr_left
      intro p hp
      exact (hmem p hp).1
    rw [this]
    exact hkeys
  · intro n hn
    rcases List.mem_map.mp hn with ⟨p, hp, rfl⟩
    obtain ⟨_, h2, h3, h4, h5, h6⟩ := hmem p hp
    exact ⟨h2, h3, h4, h5, h6⟩

theorem api_graph_node_invariants_witness :
    ∃ ns ls, api_graph stubW idOrd "1,2" none none = .ok ns ls ∧
      (ns.map (fun n => n.id)).Nodup := by
  refine ⟨_, _, rfl, ?_⟩
  exact (api_graph_node_invariants stubW idOrd "1,2" none none _ _ rfl).1


/-! ### Link-set lemmas and Claim C1 -/

theorem links_nodup_processSeed (stub : Stub) (ord : List String → List String)
    (limit clim : Int) (st : BuildSt) (i : Nat) (s : String)
    (h : st.allLinks.Nodup) :
    (processSeed stub ord limit clim st i s).allLinks.Nodup := by
  simp only [processSeed]
  split
  · exact h
  · apply foldl_invariant List.Nodup _ (fun acc b hb => setAdd_nodup _ hb)
    apply foldl_invariant List.Nodup
      (fun L a => List.foldl (fun L' b => setAdd L' (edgeKey a b)) L
        (get_citations_of stub.elink a "refs" clim))
      (fun acc b hb => foldl_invariant List.Nodup _
        (fun acc' b' hb' => setAdd_nodup _ hb') _ acc hb)
    exact h

theorem links_nodup_processSeeds (stub : Stub) (ord : List String → List String)
    (limit clim : Int) (ss : List String) (st : BuildSt) (i : Nat)
    (h : st.allLinks.Nodup) :
    (processSeeds stub ord limit clim st i ss).allLinks.Nodup :=
  processSeeds_invariant stub ord limit clim (fun st => st.allLinks.Nodup)
    (fun st i s hs => links_nodup_processSeed stub ord limit clim st i s hs) ss st i h

theorem mkLink_some_endpoints (nodes : List Node) (e : String) (l : Link)
    (h : mkLink nodes e = some l) :
    (∃ n ∈ nodes, n.id = l.source) ∧ (∃ n ∈ nodes, n.id = l.target) ∧
    e = l.source ++ "->" ++ l.target := by
  unfold mkLink at h
  split at h
  · rename_i a b hsp
    cases hsrc : nodeFind nodes a with
    | none => rw [hsrc] at h; exact absurd h (by simp)
    | some src =>
      cases htgt : nodeFind nodes b with
      | none => rw [hsrc, htgt] at h; exact absurd h (by simp)
      | some tgt =>
        rw [hsrc, htgt] at h
        simp only [Option.some.injEq] at h
        have hsl : l.source = a := by rw [← h]
        have htl : l.target = b := by rw [← h]
        subst hsl htl
        refine ⟨?_, ?_, pySplitOn_arrow_pair e l.source l.target hsp⟩
        · have hmem := List.mem_of_find?_eq_some hsrc
          have hp := List.find?_some hsrc
          exact ⟨src, List.mem_reverse.mp hmem, by simpa using hp⟩
        · have hmem := List.mem_of_find?_eq_some htgt
          have hp := List.find?_some htgt
          exact ⟨tgt, List.mem_reverse.mp hmem, by simpa using hp⟩
  · exact absurd h (by simp)

theorem links_pairs_nodup (nodes : List Node) (L : List String) (hL : L.Nodup) :
    ((L.filterMap (mkLink nodes)).map linkPair).Nodup := by
  rw [List.map_filterMap]
  refine List.Nodup.filterMap ?_ hL
  intro a a' b hb hb'
  have ex : ∀ (x : String), b ∈ (mkLink nodes x).map linkPair →
      x = b.1 ++ "->" ++ b.2 := by
    intro x hx
    rcases Option.map_eq_some'.mp (Option.mem_def.mp hx) with ⟨l, hml, hpl⟩
    have := (mkLink_some_endpoints nodes x l hml).2.2
    rw [this, ← hpl]
    rfl
  rw [ex a hb, ex a' hb']

/-- C1: in every successful `/api/graph` response, every link's source and
target appear as node ids in the returned node list, and no two links share
the same ordered (source, target) pair. -/
theorem api_graph_edge_validity (stub : Stub) (ord : List String → List String)
    (seedsRaw : String) (lp cp : Option String) (nodes : List Node)
    (links : List Link) (hord : validOrd ord)
    (hres : api_graph stub ord seedsRaw lp cp = .ok nodes links) :
    (∀ l ∈ links, (∃ n ∈ nodes, n.id = l.source) ∧ ∃ n ∈ nodes, n.id = l.target) ∧
    (links.map linkPair).Nodup := by
  obtain ⟨hne, hn, hl⟩ := api_graph_ok_eq stub ord seedsRaw lp cp nodes links hres
  constructor
  · intro l hlmem
    rw [hl] at hlmem
    rcases List.mem_filterMap.mp hlmem with ⟨e, he, hml⟩
    have hend := mkLink_some_endpoints _ e l hml
    rw [← hn] at hend
    exact ⟨hend.1, hend.2.1⟩
  · rw [hl]
    apply links_pairs_nodup
    refine ((hord _).nodup_iff).mpr ?_
    exact links_nodup_processSeeds stub ord (parseLimit lp) (parseLimit cp)
      (parseSeeds seedsRaw) ⟨[], []⟩ 0 (by simp)

theorem api_graph_edge_validity_witness :
    ∃ ns ls, api_graph stubW idOrd "1,2" none none = .ok ns ls ∧
      (ls.map linkPair).Nodup := by
  refine ⟨_, _, rfl, ?_⟩
  exact (api_graph_edge_validity stubW idOrd "1,2" none none _ _
    (fun l => List.Perm.refl l) rfl).2


/-! ### Shared-marking lemmas and Claim C2 -/

theorem touched_seedGroups_self (n : Node) (s : String) :
    s ∈ (touched n s).seedGroups := by
  unfold touched
  simp only
  split
  · rename_i h
    exact h
  · simp

theorem touched_seedGroups_mono (n : Node) (s s' : String)
    (h : s' ∈ n.seedGroups) : s' ∈ (touched n s).seedGroups := by
  unfold touched
  simp only
  split
  · exact h
  · exact List.mem_append_left _ h

theorem fold_touch_preserve (stub : Stub) (seed : String) (sIndex : Nat)
    (Q : Node → Prop) (hQ : ∀ n s, Q n → Q (touched n s)) (l : List String) :
    ∀ (nodes : List (String × Node)) (id : String) (n : Node),
      alookup id nodes = some n → Q n →
      ∃ n', alookup id (l.foldl (touchOrCreate stub seed sIndex) nodes) = some n' ∧
        Q n' := by
  induction l with
  | nil => exact fun nodes id n h hq => ⟨n, h, hq⟩
  | cons x xs ih =>
    intro nodes id n h hq
    rw [List.foldl_cons]
    by_cases hx : id = x
    · subst hx
      have hstep : alookup id (touchOrCreate stub seed sIndex nodes id) =
          some (touched n seed) := by
        rw [alookup_touchOrCreate, if_pos rfl]
        unfold valAfter
        rw [h]
    
      exact ih _ id (touched n seed) hstep (hQ n seed hq)
    · have hstep : alookup id (touchOrCreate stub seed sIndex nodes x) = some n := by
        rw [alookup_touchOrCreate, if_neg hx]
        exact h
      exact ih _ id n hstep hq

theorem fold_touch_discover (stub : Stub) (seed : String) (sIndex : Nat)
    (l : List String) :
    ∀ (nodes : List (String × Node)) (id : String), id ∈ l →
      ∃ n', alookup id (l.foldl (touchOrCreate stub seed sIndex) nodes) = some n' ∧
        seed ∈ n'.seedGroups := by
  induction l with
  | nil => simp
  | cons x xs ih =>
    intro nodes id hid
    rw [List.foldl_cons]
    by_cases hid' : id ∈ xs
    · exact ih _ id hid'
    · have hx : id = x := by
        rcases List.mem_cons.mp hid with h | h
        · exact h
        · exact absurd h hid'
      subst hx
      have hstep : ∃ m, alookup id (touchOrCreate stub seed sIndex nodes id) = some m ∧
          seed ∈ m.seedGroups := by
        rw [alookup_touchOrCreate, if_pos rfl]
        unfold valAfter
        cases hl : alookup id nodes with
        | some n => exact ⟨touched n seed, rfl, touched_seedGroups_self n seed⟩
        | none => exact ⟨mkNode stub seed sIndex id, rfl, by simp [mkNode]⟩
      obtain ⟨m, hm, hqm⟩ := hstep
      exact fold_touch_preserve stub seed sIndex (fun n => seed ∈ n.seedGroups)
        (fun n s hq => touched_seedGroups_mono n s seed hq) xs _ id m hm hqm

theorem fold_touch_mark (stub : Stub) (B : String) (sIndex : Nat) (A : String)
    (l : List String) :
    ∀ (nodes : List (String × Node)) (id : String) (n : Node),
      id ∈ l → alookup id nodes = some n → A ∈ n.seedGroups →
      ∃ n', alookup id (l.foldl (touchOrCreate stub B sIndex) nodes) = some n' ∧
        n'.shared = true ∧ A ∈ n'.seedGroups ∧ B ∈ n'.seedGroups ∧
        n'.color = "#ffffff" := by
  induction l with
  | nil => simp
  | cons x xs ih =>
    intro nodes id n hid hl hA
    rw [List.foldl_cons]
    by_cases hx : id = x
    · subst hx
      have hstep : alookup id (touchOrCreate stub B sIndex nodes id) =
          some (touched n B) := by
        rw [alookup_touchOrCreate, if_pos rfl]
        unfold valAfter
        rw [hl]
      have hP : (touched n B).shared = true ∧ A ∈ (touched n B).seedGroups ∧
          B ∈ (touched n B).seedGroups ∧ (touched n B).color = "#ffffff" :=
        ⟨rfl, touched_seedGroups_mono n B A hA, touched_seedGroups_self n B, rfl⟩
      exact fold_touch_preserve stub B sIndex
        (fun m => m.shared = true ∧ A ∈ m.seedGroups ∧ B ∈ m.seedGroups ∧
          m.color = "#ffffff")
        (fun m s hm => ⟨rfl, touched_seedGroups_mono m s A hm.2.1,
          touched_seedGroups_mono m s B hm.2.2.1, rfl⟩)
        xs _ id (touched n B) hstep hP
    · have hxs : id ∈ xs := by
        rcases List.mem_cons.mp hid with h | h
        · exact absurd h hx
        · exact h
      have hstep : alookup id (touchOrCreate stub B sIndex nodes x) = some n := by
        rw [alookup_touchOrCreate, if_neg hx]
        exact hl
      exact ih _ id n hxs hstep hA

theorem processSeed_preserve (stub : Stub) (ord : List String → List String)
    (limit clim : Int) (st : BuildSt) (i : Nat) (s : String)
    (Q : Node → Prop) (hQ : ∀ n s', Q n → Q (touched n s')) (id : String) (n : Node)
    (h : alookup id st.allNodes = some n) (hq : Q n) :
    ∃ n', alookup id (processSeed stub ord limit clim st i s).allNodes = some n' ∧
      Q n' := by
  simp only [processSeed]
  split
  · exact ⟨n, h, hq⟩
  · exact fold_touch_preserve stub s i Q hQ _ st.allNodes id n h hq

theorem processSeeds_preserve (stub : Stub) (ord : List String → List String)
    (limit clim : Int) (Q : Node → Prop) (hQ : ∀ n s', Q n → Q (touched n s')) :
    ∀ (ss : List String) (st : BuildSt) (k : Nat) (id : String) (n : Node),
      alookup id st.allNodes = some n → Q n →
      ∃ n', alookup id (processSeeds stub ord limit clim st k ss).allNodes = some n' ∧
        Q n' := by
  intro ss
  induction ss with
  | nil => exact fun st k id n h hq => ⟨n, h, hq⟩
  | cons s rest ih =>
    intro st k id n h hq
    rw [processSeeds]
    obtain ⟨n', h', hq'⟩ := processSeed_preserve stub ord limit clim st k s Q hQ id n h hq
    exact ih _ (k + 1) id n' h' hq'

theorem processSeed_discover (stub : Stub) (ord : List String → List String)
    (limit clim : Int) (st : BuildSt) (k : Nat) (s : String)
    (hord : validOrd ord) (id : String)
    (hpm : seedPmids stub limit s ≠ []) (hid : id ∈ seedLocal stub limit clim s) :
    ∃ n, alookup id (processSeed stub ord limit clim st k s).allNodes = some n ∧
      s ∈ n.seedGroups := by
  simp only [processSeed]
  rw [if_neg hpm]
  exact fold_touch_discover stub s k _ st.allNodes id ((hord _).mem_iff.mpr hid)

theorem processSeed_mark (stub : Stub) (ord : List String → List String)
    (limit clim : Int) (st : BuildSt) (k : Nat) (B : String)
    (hord : validOrd ord) (A id : String) (n : Node)
    (hpm : seedPmids stub limit B ≠ []) (hid : id ∈ seedLocal stub limit clim B)
    (hl : alookup id st.allNodes = some n) (hA : A ∈ n.seedGroups) :
    ∃ n', alookup id (processSeed stub ord limit clim st k B).allNodes = some n' ∧
      n'.shared = true ∧ A ∈ n'.seedGroups ∧ B ∈ n'.seedGroups ∧
      n'.color = "#ffffff" := by
  simp only [processSeed]
  rw [if_neg hpm]
  exact fold_touch_mark stub B k A _ st.allNodes id n
    ((hord _).mem_iff.mpr hid) hl hA

theorem processSeeds_touch (stub : Stub) (ord : List String → List String)
    (limit clim : Int) (hord : validOrd ord) (A B id : String) :
    ∀ (ss : List String) (st : BuildSt) (k : Nat) (j : Nat),
      ss.get? j = some B → seedPmids stub limit B ≠ [] →
      id ∈ seedLocal stub limit clim B →
      (∃ n, alookup id st.allNodes = some n ∧ A ∈ n.seedGroups) →
      ∃ n, alookup id (processSeeds stub ord limit clim st k ss).allNodes = some n ∧
        n.shared = true ∧ A ∈ n.seedGroups ∧ B ∈ n.seedGroups ∧
        n.color = "#ffffff" := by
  intro ss
  induction ss with
  | nil =>
    intro st k j hB
    simp at hB
  | cons s rest ih =>
    intro st k j hB hpb hib hex
    rw [processSeeds]
    cases j with
    | zero =>
      have hsB : s = B := by simpa using hB
      subst hsB
      obtain ⟨n, hn, hA⟩ := hex
      obtain ⟨n', hn', hP⟩ :=
        processSeed_mark stub ord limit clim st k s hord A id n hpb hib hn hA
      exact processSeeds_preserve stub ord limit clim
        (fun m => m.shared = true ∧ A ∈ m.seedGroups ∧ s ∈ m.seedGroups ∧
          m.color = "#ffffff")
        (fun m s' hm => ⟨rfl, touched_seedGroups_mono m s' A hm.2.1,
          touched_seedGroups_mono m s' s hm.2.2.1, rfl⟩)
        rest _ (k + 1) id n' hn' hP
    | succ j' =>
      obtain ⟨n, hn, hA⟩ := hex
      obtain ⟨n', hn', hA'⟩ := processSeed_preserve stub ord limit clim st k s
        (fun m => A ∈ m.seedGroups)
        (fun m s' hm => touched_seedGroups_mono m s' A hm) id n hn hA
      exact ih _ (k + 1) j' (by simpa using hB) hpb hib ⟨n', hn', hA'⟩

theorem processSeeds_mark (stub : Stub) (ord : List String → List String)
    (limit clim : Int) (hord : validOrd ord) (A B id : String) :
    ∀ (ss : List String) (st : BuildSt) (k : Nat) (i j : Nat),
      i < j → ss.get? i = some A → ss.get? j = some B →
      seedPmids stub limit A ≠ [] → seedPmids stub limit B ≠ [] →
      id ∈ seedLocal stub limit clim A → id ∈ seedLocal stub limit clim B →
      ∃ n, alookup id (processSeeds stub ord limit clim st k ss).allNodes = some n ∧
        n.shared = true ∧ A ∈ n.seedGroups ∧ B ∈ n.seedGroups ∧
        n.color = "#ffffff" := by
  intro ss
  induction ss with
  | nil =>
    intro st k i j hij hA
    simp at hA
  | cons s rest ih =>
    intro st k i j hij hA hB hpa hpb hia hib
    rw [processSeeds]
    cases i with
    | zero =>
      have hsA : s = A := by simpa using hA
      subst hsA
      cases j with
      | zero => omega
      | succ j' =>
        obtain ⟨n0, hn0, hA0⟩ :=
          processSeed_discover stub ord limit clim st k s hord id hpa hia
        exact processSeeds_touch stub ord limit clim hord s B id rest _ (k + 1) j'
          (by simpa using hB) hpb hib ⟨n0, hn0, hA0⟩
    | succ i' =>
      cases j with
      | zero => omega
      | succ j' =>
        exact ih _ (k + 1) i' j' (by omega) (by simpa using hA)
          (by simpa using hB) hpa hpb hia hib

/-- C2: an identifier discovered in the working set of seed `A` (index `i`)
and again in that of a later distinct seed `B` (index `j > i`) ends the
build as a node with `shared = true`, both `A` and `B` in `seedGroups`, and
the shared-color sentinel `"#ffffff"` — no matter how many further seeds
touch it (`touched` keeps `shared` true and the color fixed, so `shared`
never reverts within the build). -/
theorem api_graph_shared_marking (stub : Stub) (ord : List String → List String)
    (seedsRaw : String) (lp cp : Option String) (i j : Nat) (A B id : String)
    (nodes : List Node) (links : List Link)
    (hord : validOrd ord) (hij : i < j)
    (hA : (parseSeeds seedsRaw).get? i = some A)
    (hB : (parseSeeds seedsRaw).get? j = some B)
    (_hAB : A ≠ B)
    (hpa : seedPmids stub (parseLimit lp) A ≠ [])
    (hpb : seedPmids stub (parseLimit lp) B ≠ [])
    (hia : id ∈ seedLocal stub (parseLimit lp) (parseLimit cp) A)
    (hib : id ∈ seedLocal stub (parseLimit lp) (parseLimit cp) B)
    (hres : api_graph stub ord seedsRaw lp cp = .ok nodes links) :
    ∃ n ∈ nodes, n.id = id ∧ n.shared = true ∧ A ∈ n.seedGroups ∧
      B ∈ n.seedGroups ∧ n.color = "#ffffff" := by
  obtain ⟨hne, hn, _⟩ := api_graph_ok_eq stub ord seedsRaw lp cp nodes links hres
  obtain ⟨n, hlk, hsh, hA', hB', hc⟩ :=
    processSeeds_mark stub ord (parseLimit lp) (parseLimit cp) hord A B id
      (parseSeeds seedsRaw) ⟨[], []⟩ 0 i j hij hA hB hpa hpb hia hib
  have hinv := nodesInv_processSeeds stub ord (parseLimit lp) (parseLimit cp)
    (parseSeeds seedsRaw) ⟨[], []⟩ 0 ⟨by simp [keysOf], by simp⟩
  have hmem := alookup_mem hlk
  have hid : n.id = id := (hinv.2 _ hmem).1
  refine ⟨n, ?_, hid, hsh, hA', hB', hc⟩
  rw [hn]
  exact List.mem_map.mpr ⟨(id, n), hmem, rfl⟩

theorem api_graph_shared_marking_witness :
    ∃ nodes links, api_graph stubW idOrd "1,2" none none = .ok nodes links ∧
      ∃ n ∈ nodes, n.id = "5" ∧ n.shared = true ∧ "1" ∈ n.seedGroups ∧
        "2" ∈ n.seedGroups ∧ n.color = "#ffffff" := by
  refine ⟨_, _, rfl, ?_⟩
  exact api_graph_shared_marking stubW idOrd "1,2" none none 0 1 "1" "2" "5" _ _
    (fun l => List.Perm.refl l) (by omega) (by decide) (by decide) (by decide)
    (by decide) (by decide) (by decide) (by decide) rfl


/-! ### Oracle-independence of the node dictionary, and Claim C7 -/

theorem stEq_refl (a : List (String × Node)) : StEq a a :=
  ⟨List.Perm.refl _, fun _ => rfl⟩

theorem stEq_trans {a b c : List (String × Node)} (h1 : StEq a b) (h2 : StEq b c) :
    StEq a c :=
  ⟨h1.1.trans h2.1, fun k => (h1.2 k).trans (h2.2 k)⟩

theorem valAfter_congr (stub : Stub) (s : String) (i : Nat)
    {a b : List (String × Node)} (h : ∀ k, alookup k a = alookup k b) (p : String) :
    valAfter stub s i a p = valAfter stub s i b p := by
  unfold valAfter
  rw [h p]

theorem step_stEq (stub : Stub) (s : String) (i : Nat)
    {a b : List (String × Node)} (h : StEq a b) (p : String) :
    StEq (touchOrCreate stub s i a p) (touchOrCreate stub s i b p) := by
  obtain ⟨hk, hl⟩ := h
  constructor
  · rw [keys_touchOrCreate, keys_touchOrCreate, hl p]
    split
    · exact hk
    · exact hk.append_right [p]
  · intro k
    rw [alookup_touchOrCreate, alookup_touchOrCreate]
    by_cases hkp : k = p
    · rw [if_pos hkp, if_pos hkp, valAfter_congr stub s i hl p]
    · rw [if_neg hkp, if_neg hkp]
      exact hl k

theorem step_swap (stub : Stub) (s : String) (i : Nat)
    (st : List (String × Node)) (p q : String) :
    StEq (touchOrCreate stub s i (touchOrCreate stub s i st p) q)
         (touchOrCreate stub s i (touchOrCreate stub s i st q) p) := by
  by_cases hpq : p = q
  · subst hpq
    exact stEq_refl _
  have hq : alookup q (touchOrCreate stub s i st p) = alookup q st := by
    rw [alookup_touchOrCreate, if_neg (fun he => hpq (he.symm))]
  have hp : alookup p (touchOrCreate stub s i st q) = alookup p st := by
    rw [alookup_touchOrCreate, if_neg (fun he => hpq he)]
  have hvq : valAfter stub s i (touchOrCreate stub s i st p) q = valAfter stub s i st q := by
    unfold valAfter
    rw [hq]
  have hvp : valAfter stub s i (touchOrCreate stub s i st q) p = valAfter stub s i st p := by
    unfold valAfter
    rw [hp]
  constructor
  · rw [keys_touchOrCreate, keys_touchOrCreate, keys_touchOrCreate, keys_touchOrCreate]
    rw [hq, hp]
    cases hp0 : alookup p st <;> cases hq0 : alookup q st <;> simp
    exact List.Perm.append_left _ (List.Perm.swap q p [])
  · intro k
    rw [alookup_touchOrCreate, alookup_touchOrCreate, alookup_touchOrCreate,
      alookup_touchOrCreate, hvq, hvp]
    by_cases hkq : k = q <;> by_cases hkp : k = p
    · exact absurd (hkp.symm.trans hkq) hpq
    · rw [if_pos hkq, if_neg hkp, if_pos hkq]
    · rw [if_neg hkq, if_pos hkp, if_pos hkp]
    · rw [if_neg hkq, if_neg hkp, if_neg hkp, if_neg hkq]

theorem fold_stEq (stub : Stub) (s : String) (i : Nat) (l : List String) :
    ∀ {a b : List (String × Node)}, StEq a b →
      StEq (l.foldl (touchOrCreate stub s i) a) (l.foldl (touchOrCreate stub s i) b) := by
  induction l with
  | nil => exact fun h => h
  | cons x xs ih =>
    intro a b h
    rw [List.foldl_cons, List.foldl_cons]
    exact ih (step_stEq stub s i h x)

theorem fold_perm (stub : Stub) (s : String) (i : Nat)
    {l1 l2 : List String} (hp : l1.Perm l2) :
    ∀ st : List (String × Node),
      StEq (l1.foldl (touchOrCreate stub s i) st) (l2.foldl (touchOrCreate stub s i) st) := by
  induction hp with
  | nil => exact fun st => stEq_refl _
  | cons x _ ih =>
    intro st
    rw [List.foldl_cons, List.foldl_cons]
    exact ih (touchOrCreate stub s i st x)
  | swap x y t =>
    intro st
    rw [List.foldl_cons, List.foldl_cons, List.foldl_cons, List.foldl_cons]
    exact fold_stEq stub s i t (step_swap stub s i st y x)
  | trans _ _ ih1 ih2 =>
    intro st
    exact stEq_trans (ih1 st) (ih2 st)

theorem processSeed_stEq (stub : Stub) (ord1 ord2 : List String → List String)
    (limit clim : Int) (h1 : validOrd ord1) (h2 : validOrd ord2)
    (st1 st2 : BuildSt) (k : Nat) (s : String)
    (h : StEq st1.allNodes st2.allNodes) :
    StEq (processSeed stub ord1 limit clim st1 k s).allNodes
         (processSeed stub ord2 limit clim st2 k s).allNodes := by
  simp only [processSeed]
  by_cases hp : seedPmids stub limit s = []
  · rw [if_pos hp, if_pos hp]
    exact h
  · rw [if_neg hp, if_neg hp]
    exact stEq_trans
      (fold_stEq stub s k (ord1 (seedLocal stub limit clim s)) h)
      (fold_perm stub s k ((h1 (seedLocal stub limit clim s)).trans
        (h2 (seedLocal stub limit clim s)).symm) st2.allNodes)

theorem processSeeds_stEq (stub : Stub) (ord1 ord2 : List String → List String)
    (limit clim : Int) (h1 : validOrd ord1) (h2 : validOrd ord2) :
    ∀ (ss : List String) (st1 st2 : BuildSt) (k : Nat),
      StEq st1.allNodes st2.allNodes →
      StEq (processSeeds stub ord1 limit clim st1 k ss).allNodes
           (processSeeds stub ord2 limit clim st2 k ss).allNodes := by
  intro ss
  induction ss with
  | nil => exact fun st1 st2 k h => h
  | cons s rest ih =>
    intro st1 st2 k h
    rw [processSeeds, processSeeds]
    exact ih _ _ (k + 1) (processSeed_stEq stub ord1 ord2 limit clim h1 h2 st1 st2 k s h)

theorem alookup_of_mem_nodup {α : Type} {k : String} {v : α} :
    ∀ {l : List (String × α)}, (keysOf l).Nodup → (k, v) ∈ l →
      alookup k l = some v := by
  intro l
  induction l with
  | nil => intro _ h; exact absurd h (by simp)
  | cons p rest ih =>
    intro hnd hm
    obtain ⟨k0, v0⟩ := p
    have hnd' : k0 ∉ keysOf rest ∧ (keysOf rest).Nodup := by
      simpa [keysOf] using hnd
    rcases List.mem_cons.mp hm with he | hm'
    · injection he with he1 he2
      subst he1
      subst he2
      rw [alookup, if_pos rfl]
    · have hkm : k ∈ keysOf rest := List.mem_map_of_mem Prod.fst hm'
      have hne : k ≠ k0 := by
        intro hk
        exact hnd'.1 (hk ▸ hkm)
      rw [alookup, if_neg hne]
      exact ih hnd'.2 hm'

theorem stEq_perm {a b : List (String × Node)} (ha : (keysOf a).Nodup)
    (hb : (keysOf b).Nodup) (h : StEq a b) : a.Perm b := by
  have hna : a.Nodup := List.Nodup.of_map Prod.fst ha
  have hnb : b.Nodup := List.Nodup.of_map Prod.fst hb
  rw [List.perm_ext_iff_of_nodup hna hnb]
  intro p
  obtain ⟨k, v⟩ := p
  constructor
  · intro hm
    have := alookup_of_mem_nodup ha hm
    rw [h.2 k] at this
    exact alookup_mem this
  · intro hm
    have := alookup_of_mem_nodup hb hm
    rw [← h.2 k] at this
    exact alookup_mem this

/-- C7: two `/api/graph` runs with the same seeds, limits and deterministic
stub produce the same node set even if the two runs see different (valid)
set-iteration orders — the node list of one run is a permutation of the
other's, with identical field values; and when the iteration order is the
same (two runs inside one interpreter, where CPython set order is a
deterministic function of the same insertion history), the link lists carry
exactly the same ordered (source, target) pairs.  With different iteration
orders the chain edges (step 5) may genuinely differ, which the spec flags
as the implementation-defined-order ambiguity. -/
theorem api_graph_run_deterministic (stub : Stub)
    (ord1 ord2 : List String → List String) (seedsRaw : String)
    (lp cp : Option String) (nodes1 nodes2 : List Node)
    (links1 links2 : List Link)
    (h1 : validOrd ord1) (h2 : validOrd ord2)
    (hr1 : api_graph stub ord1 seedsRaw lp cp = .ok nodes1 links1)
    (hr2 : api_graph stub ord2 seedsRaw lp cp = .ok nodes2 links2) :
    nodes1.Perm nodes2 ∧
    (ord1 = ord2 → links1.map linkPair = links2.map linkPair) := by
  constructor
  · obtain ⟨hne1, hn1, _⟩ := api_graph_ok_eq stub ord1 seedsRaw lp cp nodes1 links1 hr1
    obtain ⟨hne2, hn2, _⟩ := api_graph_ok_eq stub ord2 seedsRaw lp cp nodes2 links2 hr2
    subst hn1
    subst hn2
    apply List.Perm.map
    apply stEq_perm
    · exact (nodesInv_processSeeds stub ord1 (parseLimit lp) (parseLimit cp)
        (parseSeeds seedsRaw) ⟨[], []⟩ 0 ⟨by simp [keysOf], by simp⟩).1
    · exact (nodesInv_processSeeds stub ord2 (parseLimit lp) (parseLimit cp)
        (parseSeeds seedsRaw) ⟨[], []⟩ 0 ⟨by simp [keysOf], by simp⟩).1
    · exact processSeeds_stEq stub ord1 ord2 (parseLimit lp) (parseLimit cp) h1 h2
        (parseSeeds seedsRaw) ⟨[], []⟩ ⟨[], []⟩ 0 (stEq_refl [])
  · intro heq
    subst heq
    rw [hr1] at hr2
    injection hr2 with hn hl
    rw [hl]

theorem api_graph_run_deterministic_witness :
    ∃ ns1 ls1 ns2 ls2, api_graph stubW revOrd "1,2" none none = .ok ns1 ls1 ∧
      api_graph stubW idOrd "1,2" none none = .ok ns2 ls2 ∧ ns1.Perm ns2 := by
  refine ⟨_, _, _, _, rfl, rfl, ?_⟩
  exact (api_graph_run_deterministic stubW revOrd idOrd "1,2" none none _ _ _ _
    (fun l => l.reverse_perm) (fun l => List.Perm.refl l) rfl rfl).1


end Nw3
